import Mathlib

/-!
Verification of the ensemble training-and-evaluation pipeline of
train_interpreter.py (ddpm-segmentation).

The Python source is shallowly embedded: label maps are lists of naturals
(flattened pixels of one image), feature rows are kept abstract as a type
parameter, loss values are rationals, and the mutable training loop is an
explicit fold over a step function on a state record.  Machine integers
are modelled as Nat with explicit reduction modulo 2^8 where the source
stores labels in a uint8 tensor.
-/

set_option maxRecDepth 4000

/-- Sparse-label suppression for one class of one image
(train_interpreter.py, prepare_data, the body of the loop over target:
if 0 < (label == target).sum() < 20 then label[label == target] = ignore). -/
def suppressClass (ignore target : ℕ) (label : List ℕ) : List ℕ :=
  if 0 < label.count target ∧ label.count target < 20 then
    label.map (fun v => if v = target then ignore else v)
  else label

/-- Sparse-label suppression over all classes of one image
(prepare_data: for target in range(number_class): if target == ignore_label:
continue; then suppressClass). -/
def suppressImage (numClass ignore : ℕ) (label : List ℕ) : List ℕ :=
  (List.range numClass).foldl
    (fun lab target => if target = ignore then lab else suppressClass ignore target lab) label

/-- Storage of one label value into the uint8 accumulator y
(prepare_data: y = torch.zeros(..., dtype=torch.uint8); y[row] = label). -/
def toUint8 (v : ℕ) : ℕ := v % 256

/-- The stored (uint8) label row of one image after suppression. -/
def storedImageLabels (numClass ignore : ℕ) (label : List ℕ) : List ℕ :=
  (suppressImage numClass ignore label).map toUint8

/-- Pixel value that the whole suppression pass of one image assigns to an
original pixel value v, once the classes below t have been processed.
At t = numClass this describes suppressImage (proved below). -/
def stageVal (ignore t : ℕ) (lab : List ℕ) (v : ℕ) : ℕ :=
  if v < t ∧ v ≠ ignore ∧ 0 < lab.count v ∧ lab.count v < 20 then ignore else v

lemma stageVal_eq_t (ignore t : ℕ) (lab : List ℕ) (ht : t ≠ ignore) (v : ℕ) :
    stageVal ignore t lab v = t ↔ v = t := by
  unfold stageVal
  split
  case isTrue h =>
    constructor
    · intro he; exact absurd he.symm ht
    · intro he; omega
  case isFalse h => exact Iff.rfl

lemma count_map_eq_countP (f : ℕ → ℕ) (l : List ℕ) (a : ℕ) :
    (l.map f).count a = l.countP (fun v => f v == a) := by
  rw [List.count_eq_countP, List.countP_map]
  rfl

lemma count_map_stageVal (ignore t : ℕ) (lab l : List ℕ) (ht : t ≠ ignore) :
    (l.map (stageVal ignore t lab)).count t = l.count t := by
  rw [count_map_eq_countP, List.count_eq_countP]
  refine List.countP_congr ?_
  intro v _
  simp only [beq_iff_eq]
  exact ⟨fun h => (stageVal_eq_t ignore t lab ht v).mp h,
         fun h => (stageVal_eq_t ignore t lab ht v).mpr h⟩

lemma stageVal_succ_of_ne (ignore t : ℕ) (lab : List ℕ) (v : ℕ) (hv : v ≠ t) :
    stageVal ignore (t + 1) lab v = stageVal ignore t lab v := by
  unfold stageVal
  refine if_congr ?_ rfl rfl
  constructor
  · intro h; exact ⟨by omega, h.2⟩
  · intro h; exact ⟨by omega, h.2⟩

lemma suppress_step (ignore t : ℕ) (lab : List ℕ) :
    (if t = ignore then lab.map (stageVal ignore t lab)
     else suppressClass ignore t (lab.map (stageVal ignore t lab)))
      = lab.map (stageVal ignore (t + 1) lab) := by
  by_cases hig : t = ignore
  · rw [if_pos hig]
    refine List.map_congr_left ?_
    intro v _
    by_cases hv : v = t
    · subst hv
      unfold stageVal
      rw [if_neg (fun h => h.2.1 hig), if_neg (fun h => h.2.1 hig)]
    · exact (stageVal_succ_of_ne ignore t lab v hv).symm
  · rw [if_neg hig]
    unfold suppressClass
    rw [count_map_stageVal ignore t lab lab hig]
    by_cases hsp : 0 < lab.count t ∧ lab.count t < 20
    · rw [if_pos hsp, List.map_map]
      refine List.map_congr_left ?_
      intro v _
      simp only [Function.comp_apply]
      by_cases hv : v = t
      · subst hv
        rw [if_pos ((stageVal_eq_t ignore v lab hig v).mpr rfl)]
        unfold stageVal
        rw [if_pos ⟨Nat.lt_succ_self v, hig, hsp.1, hsp.2⟩]
      · rw [if_neg (fun h => hv ((stageVal_eq_t ignore t lab hig v).mp h))]
        exact (stageVal_succ_of_ne ignore t lab v hv).symm
    · rw [if_neg hsp]
      refine List.map_congr_left ?_
      intro v _
      by_cases hv : v = t
      · subst hv
        unfold stageVal
        rw [if_neg (fun h => absurd h.1 (Nat.lt_irrefl v)),
            if_neg (fun h => hsp ⟨h.2.2.1, h.2.2.2⟩)]
      · exact (stageVal_succ_of_ne ignore t lab v hv).symm

lemma suppress_foldl (ignore : ℕ) (lab : List ℕ) :
    ∀ (k t : ℕ),
      (List.range' t k).foldl
        (fun l tg => if tg = ignore then l else suppressClass ignore tg l)
        (lab.map (stageVal ignore t lab))
      = lab.map (stageVal ignore (t + k) lab) := by
  intro k
  induction k with
  | zero => intro t; simp
  | succ n ih =>
    intro t
    rw [List.range'_succ, List.foldl_cons]
    rw [suppress_step ignore t lab, ih (t + 1)]
    have harith : t + 1 + n = t + (n + 1) := by omega
    rw [harith]

/-- Characterization of the whole suppression pass: it maps each pixel value
through stageVal at level numClass, with counts taken in the original image. -/
lemma suppressImage_eq_map (numClass ignore : ℕ) (lab : List ℕ) :
    suppressImage numClass ignore lab = lab.map (stageVal ignore numClass lab) := by
  unfold suppressImage
  rw [List.range_eq_range']
  have h0 : lab.map (stageVal ignore 0 lab) = lab := by
    have : ∀ v ∈ lab, stageVal ignore 0 lab v = v := by
      intro v _
      unfold stageVal
      rw [if_neg (by intro h; omega)]
    rw [List.map_congr_left this, List.map_id']
  calc (List.range' 0 numClass).foldl
        (fun lab target => if target = ignore then lab else suppressClass ignore target lab) lab
      = (List.range' 0 numClass).foldl
        (fun lab target => if target = ignore then lab else suppressClass ignore target lab)
        (lab.map (stageVal ignore 0 lab)) := by rw [h0]
    _ = lab.map (stageVal ignore (0 + numClass) lab) := suppress_foldl ignore lab numClass 0
    _ = lab.map (stageVal ignore numClass lab) := by rw [Nat.zero_add]

lemma suppressImage_length (numClass ignore : ℕ) (lab : List ℕ) :
    (suppressImage numClass ignore lab).length = lab.length := by
  rw [suppressImage_eq_map, List.length_map]

lemma getD_map_of_lt (f : ℕ → ℕ) (l : List ℕ) (i : ℕ) (hi : i < l.length) (d : ℕ) :
    (l.map f).getD i d = f (l.getD i d) := by
  induction l generalizing i with
  | nil => simp at hi
  | cons x xs ih =>
    cases i with
    | zero => rfl
    | succ n =>
      rw [List.map_cons, List.getD_cons_succ, List.getD_cons_succ]
      exact ih n (by simpa using hi)

lemma suppressImage_getD (numClass ignore : ℕ) (lab : List ℕ) (i : ℕ) (hi : i < lab.length) :
    (suppressImage numClass ignore lab).getD i 0
      = stageVal ignore numClass lab (lab.getD i 0) := by
  rw [suppressImage_eq_map]
  exact getD_map_of_lt _ lab i hi 0

lemma suppressImage_count (numClass ignore c : ℕ) (lab : List ℕ)
    (hc : c < numClass) (hne : c ≠ ignore) :
    (suppressImage numClass ignore lab).count c =
      if 0 < lab.count c ∧ lab.count c < 20 then 0 else lab.count c := by
  rw [suppressImage_eq_map, count_map_eq_countP]
  by_cases hsp : 0 < lab.count c ∧ lab.count c < 20
  · rw [if_pos hsp]
    rw [List.countP_eq_zero.mpr]
    intro v _
    simp only [beq_iff_eq]
    intro hv
    unfold stageVal at hv
    by_cases hcond : v < numClass ∧ v ≠ ignore ∧ 0 < lab.count v ∧ lab.count v < 20
    · rw [if_pos hcond] at hv; exact hne hv.symm
    · rw [if_neg hcond] at hv
      subst hv
      exact hcond ⟨hc, hne, hsp.1, hsp.2⟩
  · rw [if_neg hsp, List.count_eq_countP]
    refine List.countP_congr ?_
    intro v _
    simp only [beq_iff_eq]
    constructor
    · intro hv
      unfold stageVal at hv
      by_cases hcond : v < numClass ∧ v ≠ ignore ∧ 0 < lab.count v ∧ lab.count v < 20
      · rw [if_pos hcond] at hv; exact absurd hv.symm hne
      · rwa [if_neg hcond] at hv
    · intro hv
      subst hv
      unfold stageVal
      rw [if_neg (by intro h; exact hsp ⟨h.2.2.1, h.2.2.2⟩)]

/-- C1: for every image and every class c below numClass other than the ignore
label, if the pixel count of c is strictly between 0 and 20 then every pixel of
class c is relabeled to the ignore label by suppressImage; if the count is 0 or
at least 20 those pixels are unchanged; and after suppression no non-ignore
class below numClass has a pixel count strictly between 1 and 20. -/
theorem c1_sparse_label_suppression (numClass ignore : ℕ) (lab : List ℕ) :
    (∀ c, c < numClass → c ≠ ignore → 0 < lab.count c → lab.count c < 20 →
      ∀ i, i < lab.length → lab.getD i 0 = c →
        (suppressImage numClass ignore lab).getD i 0 = ignore) ∧
    (∀ c, c < numClass → c ≠ ignore → (lab.count c = 0 ∨ 20 ≤ lab.count c) →
      ∀ i, i < lab.length → lab.getD i 0 = c →
        (suppressImage numClass ignore lab).getD i 0 = c) ∧
    (∀ c, c < numClass → c ≠ ignore →
      ¬(0 < (suppressImage numClass ignore lab).count c ∧
        (suppressImage numClass ignore lab).count c < 20)) := by
  refine ⟨?_, ?_, ?_⟩
  · intro c h1 h2 h3 h4 i hi hv
    rw [suppressImage_getD numClass ignore lab i hi, hv]
    unfold stageVal
    rw [if_pos ⟨h1, h2, h3, h4⟩]
  · intro c h1 h2 h3 i hi hv
    rw [suppressImage_getD numClass ignore lab i hi, hv]
    unfold stageVal
    rw [if_neg (by intro h; omega)]
  · intro c h1 h2
    rw [suppressImage_count numClass ignore c lab h1 h2]
    split
    · omega
    · omega

/-- A concrete 23-pixel image used to exercise sparse-label suppression:
twenty pixels of class 2 (kept) and three pixels of class 1 (suppressed). -/
def labC1 : List ℕ := List.replicate 20 2 ++ [1, 1, 1]

theorem c1_sparse_label_suppression_witness :
    (suppressImage 3 255 labC1).getD 20 0 = 255 ∧
    (suppressImage 3 255 labC1).getD 0 0 = 2 ∧
    ¬(0 < (suppressImage 3 255 labC1).count 1 ∧
      (suppressImage 3 255 labC1).count 1 < 20) :=
  ⟨(c1_sparse_label_suppression 3 255 labC1).1 1 (by decide) (by decide)
      (by decide) (by decide) 20 (by decide) (by decide),
   (c1_sparse_label_suppression 3 255 labC1).2.1 2 (by decide) (by decide)
      (Or.inr (by decide)) 0 (by decide) (by decide),
   (c1_sparse_label_suppression 3 255 labC1).2.2 1 (by decide) (by decide)⟩

/-- Concatenated feature rows of all images (prepare_data: the X accumulator,
one feature row per (image, pixel), flattened image-major). -/
def prepareDataX {α : Type} (imgs : List (List α × List ℕ)) : List α :=
  (imgs.map Prod.fst).flatten

/-- Concatenated stored labels of all images (prepare_data: the uint8
accumulator y after suppression, flattened image-major by y.flatten()). -/
def prepareDataY {α : Type} (numClass ignore : ℕ) (imgs : List (List α × List ℕ)) : List ℕ :=
  (imgs.map (fun p => storedImageLabels numClass ignore p.2)).flatten

/-- Boolean-mask selection, the embedding of tensor indexing X[mask]. -/
def maskSelect {α : Type} (mask : List Bool) (xs : List α) : List α :=
  ((xs.zip mask).filter (fun p => p.2)).map Prod.fst

/-- prepare_data returns X[y != ignore_label], y[y != ignore_label]. -/
def prepareData {α : Type} (numClass ignore : ℕ) (imgs : List (List α × List ℕ)) :
    List α × List ℕ :=
  let X := prepareDataX imgs
  let y := prepareDataY numClass ignore imgs
  let mask := y.map (fun v => decide (v ≠ ignore))
  (maskSelect mask X, maskSelect mask y)

lemma maskSelect_length {α : Type} (mask : List Bool) (xs : List α)
    (h : xs.length = mask.length) :
    (maskSelect mask xs).length = mask.count true := by
  induction mask generalizing xs with
  | nil =>
    cases xs with
    | nil => rfl
    | cons a as => simp at h
  | cons b bs ih =>
    cases xs with
    | nil => simp at h
    | cons a as =>
      have h' : as.length = bs.length := by simpa using h
      cases b
      · simpa [maskSelect, List.count_cons] using ih as h'
      · simpa [maskSelect, List.count_cons] using ih as h'

lemma maskSelect_map_self {α : Type} (p : α → Bool) (ys : List α) :
    maskSelect (ys.map p) ys = ys.filter p := by
  induction ys with
  | nil => rfl
  | cons y ys ih =>
    unfold maskSelect at ih ⊢
    simp only [List.map_cons, List.zip_cons_cons, List.filter_cons]
    cases hp : p y
    · simpa [hp] using ih
    · simpa [hp] using ih

lemma count_true_map {α : Type} (p : α → Bool) (ys : List α) :
    (ys.map p).count true = ys.countP p := by
  rw [List.count_eq_countP, List.countP_map]
  congr 1
  funext v
  simp

lemma storedImageLabels_length (numClass ignore : ℕ) (lab : List ℕ) :
    (storedImageLabels numClass ignore lab).length = lab.length := by
  unfold storedImageLabels
  rw [List.length_map, suppressImage_length]

lemma prepareData_lengths {α : Type} (numClass ignore : ℕ)
    (imgs : List (List α × List ℕ))
    (hsh : ∀ p ∈ imgs, p.1.length = p.2.length) :
    (prepareDataX imgs).length = (prepareDataY numClass ignore imgs).length := by
  induction imgs with
  | nil => rfl
  | cons p ps ih =>
    unfold prepareDataX prepareDataY at ih ⊢
    simp only [List.map_cons, List.flatten_cons, List.length_append]
    rw [storedImageLabels_length, ← hsh p (List.mem_cons_self p ps),
        ih (fun q hq => hsh q (List.mem_cons_of_mem p hq))]

/-- C2: prepare_data returns exactly the rows whose stored post-suppression
label differs from the ignore label: the returned feature list and label list
both have length equal to the sum over images of the per-image count of
non-ignore stored pixels after suppression, and no returned label equals the
ignore label. -/
theorem c2_ignore_rows_filtered {α : Type} (numClass ignore : ℕ)
    (imgs : List (List α × List ℕ))
    (hsh : ∀ p ∈ imgs, p.1.length = p.2.length) :
    (prepareData numClass ignore imgs).1.length
        = (imgs.map (fun p => (storedImageLabels numClass ignore p.2).countP
            (fun v => decide (v ≠ ignore)))).sum ∧
    (prepareData numClass ignore imgs).2.length
        = (imgs.map (fun p => (storedImageLabels numClass ignore p.2).countP
            (fun v => decide (v ≠ ignore)))).sum ∧
    ∀ l ∈ (prepareData numClass ignore imgs).2, l ≠ ignore := by
  have hflat : (prepareDataY numClass ignore imgs).countP (fun v => decide (v ≠ ignore))
      = (imgs.map (fun p => (storedImageLabels numClass ignore p.2).countP
          (fun v => decide (v ≠ ignore)))).sum := by
    unfold prepareDataY
    rw [List.countP_flatten, List.map_map]
    rfl
  refine ⟨?_, ?_, ?_⟩
  · show (maskSelect ((prepareDataY numClass ignore imgs).map
        (fun v => decide (v ≠ ignore))) (prepareDataX imgs)).length = _
    rw [maskSelect_length _ _ (by
      rw [List.length_map]
      exact prepareData_lengths numClass ignore imgs hsh),
      count_true_map, hflat]
  · show (maskSelect ((prepareDataY numClass ignore imgs).map
        (fun v => decide (v ≠ ignore))) (prepareDataY numClass ignore imgs)).length = _
    rw [maskSelect_map_self, ← List.countP_eq_length_filter, hflat]
  · intro l hl
    have hl' : l ∈ (prepareDataY numClass ignore imgs).filter (fun v => decide (v ≠ ignore)) := by
      rw [← maskSelect_map_self]
      exact hl
    have := (List.mem_filter.mp hl').2
    simpa using this

/-- A concrete one-image input for prepare_data: two pixels, labels 5 and 255,
with feature rows 10 and 20. -/
def imgsC2 : List (List ℕ × List ℕ) := [([10, 20], [5, 255])]

theorem c2_ignore_rows_filtered_witness :
    (prepareData 3 255 imgsC2).1.length
        = (imgsC2.map (fun p => (storedImageLabels 3 255 p.2).countP
            (fun v => decide (v ≠ 255)))).sum ∧
    (prepareData 3 255 imgsC2).2.length
        = (imgsC2.map (fun p => (storedImageLabels 3 255 p.2).countP
            (fun v => decide (v ≠ 255)))).sum :=
  ⟨(c2_ignore_rows_filtered 3 255 imgsC2 (by decide)).1,
   (c2_ignore_rows_filtered 3 255 imgsC2 (by decide)).2.1⟩

/-- C10: the per-image label accumulator stores labels as 8-bit unsigned
integers: every stored label is the post-suppression value reduced modulo 256;
values up to 255 (such as the conventional ignore label 255) are preserved
exactly; 256 would be silently truncated to 0; and the ignore filter compares
the truncated value, as the concrete image of twenty pixels of label value 511
with ignore label 255 shows: all of its rows are dropped by prepare_data. -/
theorem c10_uint8_label_truncation :
    (∀ numClass ignore lab, storedImageLabels numClass ignore lab
        = (suppressImage numClass ignore lab).map (fun v => v % 256)) ∧
    (∀ v, v ≤ 255 → toUint8 v = v) ∧
    toUint8 255 = 255 ∧
    (255 < 256 ∧ toUint8 256 = 0 ∧ toUint8 256 ≠ 256) ∧
    prepareData 3 255 [((List.replicate 20 0 : List ℕ), List.replicate 20 511)] = ([], []) := by
  refine ⟨fun numClass ignore lab => rfl,
          fun v hv => Nat.mod_eq_of_lt (by omega),
          rfl, ⟨by omega, rfl, by decide⟩, by decide⟩

theorem c10_uint8_label_truncation_witness : toUint8 77 = 77 :=
  c10_uint8_label_truncation.2.1 77 (by decide)

/-- Mutable state of the training loop for one ensemble member
(train: iteration, break_count, best_loss = 10000000, stop_sign). -/
structure TrainState where
  iteration : ℕ
  breakCount : ℕ
  bestLoss : ℚ
  stopSign : Bool
deriving DecidableEq

/-- State at the start of one member's training (train, lines 139-142). -/
def initTrainState : TrainState := ⟨0, 0, 10000000, false⟩

/-- One batch step of the training loop (train, lines 144-170).  With B
batches per epoch, global step i belongs to epoch i / B.  The step increments
iteration; once epoch > 3 it compares the loss against best_loss, resets or
increments break_count, and raises stop_sign when break_count > 50.  A state
with stop_sign set is frozen: the two break statements have ended the run. -/
def trainStep (B : ℕ) (loss : ℕ → ℚ) (s : TrainState) (i : ℕ) : TrainState :=
  if s.stopSign then s
  else if 3 < i / B then
    if loss i < s.bestLoss then
      ⟨s.iteration + 1, 0, loss i, false⟩
    else if 50 < s.breakCount + 1 then
      ⟨s.iteration + 1, s.breakCount + 1, s.bestLoss, true⟩
    else
      ⟨s.iteration + 1, s.breakCount + 1, s.bestLoss, false⟩
  else ⟨s.iteration + 1, s.breakCount, s.bestLoss, s.stopSign⟩

/-- Training of one ensemble member: 100 epochs of B batches, i.e. global
steps 0, ..., numSteps - 1 with numSteps = 100 * B, abandoning the remaining
steps once stop_sign is raised. -/
def trainRun (B : ℕ) (loss : ℕ → ℚ) (numSteps : ℕ) : TrainState :=
  (List.range numSteps).foldl (trainStep B loss) initTrainState

/-- A loss sequence for one batch per epoch: above 1 during the four warm-up
epochs, flat at 1 for the 51 consecutive steps 4..54 (all at epochs above 3),
then 2 afterwards. -/
def lossFlat51 (i : ℕ) : ℚ := if i < 4 then 100 else if i ≤ 54 then 1 else 2

/-- C3 counterexample: lossFlat51 stays flat at value 1 for the 51 consecutive
steps 4..54, all at epochs above 3 (one batch per epoch), yet the trainer does
not stop within that flat run: it executes the step after the run (iteration
reaches 56 > 55), because the first flat step improves best_loss and resets
break_count, leaving only 50 non-improving steps inside the run. -/
theorem c3_counterexample :
    ((List.range 51).all (fun j => decide (lossFlat51 (4 + j) = 1)) = true) ∧
    ((List.range 51).all (fun j => decide (3 < (4 + j) / 1)) = true) ∧
    (trainRun 1 lossFlat51 100).iteration = 56 ∧
    (trainRun 1 lossFlat51 100).breakCount = 51 := by
  refine ⟨by decide, by decide, by decide, by decide⟩

lemma trainStep_stopped (B : ℕ) (loss : ℕ → ℚ) (s : TrainState) (i : ℕ)
    (h : s.stopSign = true) : trainStep B loss s i = s := by
  unfold trainStep
  rw [if_pos h]

lemma foldl_trainStep_stopped (B : ℕ) (loss : ℕ → ℚ) (l : List ℕ) (s : TrainState)
    (h : s.stopSign = true) : l.foldl (trainStep B loss) s = s := by
  induction l with
  | nil => rfl
  | cons a as ih =>
    rw [List.foldl_cons, trainStep_stopped B loss s a h]
    exact ih

lemma trainStep_iteration_le (B : ℕ) (loss : ℕ → ℚ) (s : TrainState) (i : ℕ) :
    (trainStep B loss s i).iteration ≤ s.iteration + 1 := by
  unfold trainStep
  split_ifs <;> simp

lemma foldl_trainStep_iteration (B : ℕ) (loss : ℕ → ℚ) (l : List ℕ) (s : TrainState) :
    (l.foldl (trainStep B loss) s).iteration ≤ s.iteration + l.length := by
  induction l generalizing s with
  | nil => simp
  | cons a as ih =>
    rw [List.foldl_cons]
    refine le_trans (ih (trainStep B loss s a)) ?_
    have := trainStep_iteration_le B loss s a
    simp only [List.length_cons]
    omega

lemma trainStep_improve (B : ℕ) (loss : ℕ → ℚ) (s : TrainState) (i : ℕ)
    (hs : s.stopSign = false) (hep : 3 < i / B) (hlt : loss i < s.bestLoss) :
    trainStep B loss s i = ⟨s.iteration + 1, 0, loss i, false⟩ := by
  unfold trainStep
  rw [if_neg (by simp [hs]), if_pos hep, if_pos hlt]

lemma trainStep_no_improve_stop (B : ℕ) (loss : ℕ → ℚ) (s : TrainState) (i : ℕ)
    (hs : s.stopSign = false) (hep : 3 < i / B) (hge : ¬ loss i < s.bestLoss)
    (hbc : 50 < s.breakCount + 1) :
    trainStep B loss s i = ⟨s.iteration + 1, s.breakCount + 1, s.bestLoss, true⟩ := by
  unfold trainStep
  rw [if_neg (by simp [hs]), if_pos hep, if_neg hge, if_pos hbc]

lemma trainStep_no_improve_go (B : ℕ) (loss : ℕ → ℚ) (s : TrainState) (i : ℕ)
    (hs : s.stopSign = false) (hep : 3 < i / B) (hge : ¬ loss i < s.bestLoss)
    (hbc : ¬ 50 < s.breakCount + 1) :
    trainStep B loss s i = ⟨s.iteration + 1, s.breakCount + 1, s.bestLoss, false⟩ := by
  unfold trainStep
  rw [if_neg (by simp [hs]), if_pos hep, if_neg hge, if_neg hbc]

lemma range'_split_one (k n : ℕ) :
    List.range' k (n + 1) = List.range' k n ++ [k + n] := by
  have := @List.range'_concat 1 k n
  simpa using this

lemma flat_run_stops (B : ℕ) (loss : ℕ → ℚ) (k : ℕ) (v : ℚ) (s : TrainState)
    (hflat : ∀ j, k ≤ j → j < k + 52 → loss j = v)
    (hep : 3 < k / B) :
    ((List.range' k 52).foldl (trainStep B loss) s).stopSign = true := by
  suffices h : ∀ m, 1 ≤ m → m ≤ 52 →
      (((List.range' k m).foldl (trainStep B loss) s).stopSign = true ∨
       (((List.range' k m).foldl (trainStep B loss) s).bestLoss ≤ v ∧
        m ≤ ((List.range' k m).foldl (trainStep B loss) s).breakCount + 1 ∧
        ((List.range' k m).foldl (trainStep B loss) s).breakCount ≤ 50 ∧
        ((List.range' k m).foldl (trainStep B loss) s).stopSign = false)) by
    rcases h 52 (by omega) (le_refl 52) with h52 | ⟨_, hm, hbc, _⟩
    · exact h52
    · omega
  intro m
  induction m with
  | zero => omega
  | succ n ih =>
    intro _ hle
    by_cases hn : n = 0
    · subst hn
      have hone : List.range' k 1 = [k] := by simp
      rw [hone, List.foldl_cons, List.foldl_nil]
      by_cases hstop0 : s.stopSign = true
      · left
        rw [trainStep_stopped B loss s k hstop0]
        exact hstop0
      · have hs : s.stopSign = false := by
          cases h : s.stopSign
          · rfl
          · exact absurd h hstop0
        have hlk : loss k = v := hflat k (le_refl k) (by omega)
        by_cases hlt : loss k < s.bestLoss
        · right
          rw [trainStep_improve B loss s k hs hep hlt]
          dsimp only
          refine ⟨le_of_eq hlk, by omega, by omega, rfl⟩
        · by_cases hbc : 50 < s.breakCount + 1
          · left
            rw [trainStep_no_improve_stop B loss s k hs hep hlt hbc]
          · right
            rw [trainStep_no_improve_go B loss s k hs hep hlt hbc]
            dsimp only
            refine ⟨?_, by omega, by omega, rfl⟩
            have : s.bestLoss ≤ loss k := le_of_not_lt hlt
            rw [hlk] at this
            exact this
    · have h1 : 1 ≤ n := by omega
      rw [range'_split_one k n, List.foldl_append, List.foldl_cons, List.foldl_nil]
      rcases ih h1 (by omega) with hstop | ⟨hbest, hm, hbc, hns⟩
      · left
        rw [trainStep_stopped B loss _ _ hstop]
        exact hstop
      · have hlkn : loss (k + n) = v := hflat (k + n) (by omega) (by omega)
        have hepn : 3 < (k + n) / B :=
          lt_of_lt_of_le hep (Nat.div_le_div_right (by omega))
        have hge : ¬ loss (k + n) <
            ((List.range' k n).foldl (trainStep B loss) s).bestLoss := by
          rw [hlkn]
          exact not_lt.mpr hbest
        by_cases hbc2 : 50 <
            ((List.range' k n).foldl (trainStep B loss) s).breakCount + 1
        · left
          rw [trainStep_no_improve_stop B loss _ _ hns hepn hge hbc2]
        · right
          rw [trainStep_no_improve_go B loss _ _ hns hepn hge hbc2]
          dsimp only
          refine ⟨hbest, by omega, by omega, rfl⟩

/-- C3 (amended): during the warm-up epochs (epoch index at most 3) a step
only increments the iteration counter and leaves the early-stopping state
untouched; from epoch 4 on, each step updates best_loss and break_count as the
claim states, and for any loss sequence that stays flat for 52 consecutive
steps all lying at epochs above 3 and inside the 100-epoch budget, the trainer
stops within that flat run: no step after it is ever executed.  (The claim as
frozen says 51 consecutive flat steps suffice; the counterexample shows they
do not, because the first flat step can improve best_loss and reset
break_count, so 52 are needed.) -/
theorem c3_early_stopping (B : ℕ) (loss : ℕ → ℚ) (k : ℕ) (v : ℚ)
    (hflat : ∀ j, k ≤ j → j < k + 52 → loss j = v)
    (hep : 3 < k / B)
    (hlen : k + 52 ≤ 100 * B) :
    (∀ (s : TrainState) (i : ℕ), s.stopSign = false → i / B ≤ 3 →
      trainStep B loss s i = ⟨s.iteration + 1, s.breakCount, s.bestLoss, s.stopSign⟩) ∧
    (trainRun B loss (100 * B)).iteration ≤ k + 52 := by
  constructor
  · intro s i hs hi
    unfold trainStep
    rw [if_neg (by simp [hs]), if_neg (by omega)]
  · unfold trainRun
    have hsplit1 : List.range' 0 (100 * B) =
        List.range' 0 (k + 52) ++ List.range' (k + 52) (100 * B - (k + 52)) := by
      have := List.range'_append 0 (k + 52) (100 * B - (k + 52)) 1
      simp only [Nat.one_mul, Nat.zero_add] at this
      have harith : 100 * B = 100 * B - (k + 52) + (k + 52) := by omega
      nth_rewrite 1 [harith]
      rw [← this]
    have hsplit2 : List.range' 0 (k + 52) = List.range' 0 k ++ List.range' k 52 := by
      have := List.range'_append 0 k 52 1
      simp only [Nat.one_mul, Nat.zero_add] at this
      rw [Nat.add_comm k 52, ← this]
    rw [List.range_eq_range', hsplit1, hsplit2, List.foldl_append, List.foldl_append]
    have hstop : ((List.range' k 52).foldl (trainStep B loss)
        ((List.range' 0 k).foldl (trainStep B loss) initTrainState)).stopSign = true :=
      flat_run_stops B loss k v _ hflat hep
    rw [foldl_trainStep_stopped _ _ _ _ hstop]
    have h2 := foldl_trainStep_iteration B loss (List.range' k 52)
      ((List.range' 0 k).foldl (trainStep B loss) initTrainState)
    have h3 := foldl_trainStep_iteration B loss (List.range' 0 k) initTrainState
    have h4 : initTrainState.iteration = 0 := rfl
    simp only [List.length_range'] at h2 h3
    omega

/-- A loss sequence that is flat at 1 from step 4 onwards. -/
def lossWitC3 (i : ℕ) : ℚ := if i < 4 then 100 else 1

theorem c3_early_stopping_witness :
    (trainRun 1 lossWitC3 100).iteration ≤ 56 :=
  (c3_early_stopping 1 lossWitC3 4 1
    (fun j h1 _ => by unfold lossWitC3; rw [if_neg (by omega)])
    (by decide) (by decide)).2

/-- The resumability logic of the entry point (lines 208-215 together with the
train loop at line 128): pretrained = map of file-existence over the indices
0 .. model_num - 1; if not all files exist, training runs over the indices
start_model_num, ..., model_num - 1 where start_model_num = sum(pretrained). -/
def trainedIndices (ex : ℕ → Bool) (modelNum : ℕ) : List ℕ :=
  if ((List.range modelNum).map ex).all (fun b => b) then []
  else List.range' (((List.range modelNum).map ex).count true)
         (modelNum - ((List.range modelNum).map ex).count true)

/-- The model files present after one full run of the entry point: the train
loop saves model_i for every index it trains (line 179). -/
def runOnce (ex : ℕ → Bool) (modelNum : ℕ) : ℕ → Bool :=
  fun i => ex i || (trainedIndices ex modelNum).contains i

/-- A non-contiguous file pattern: model_0 and model_2 exist, model_1 does not. -/
def exA : ℕ → Bool := fun i => decide (i = 0) || decide (i = 2)

/-- A state with no model files at all. -/
def exNone : ℕ → Bool := fun _ => false

/-- C4 counterexample: with model_0 and model_2 present but model_1 absent and
model_num = 3, the run trains exactly index 2 — whose file already exists, so
that member is retrained and overwritten — and never trains the missing
index 1, contradicting the claim for non-contiguous patterns. -/
theorem c4_counterexample :
    exA 1 = false ∧ exA 2 = true ∧ trainedIndices exA 3 = [2] :=
  ⟨rfl, rfl, by decide⟩

lemma filter_ge_range (n c : ℕ) :
    (List.range n).filter (fun i => decide (c ≤ i)) = List.range' c (n - c) := by
  induction n with
  | zero => simp
  | succ m ih =>
    rw [List.range_succ, List.filter_append, ih]
    by_cases h : c ≤ m
    · have hm : m + 1 - c = (m - c) + 1 := by omega
      have hcm : c + (m - c) = m := by omega
      rw [hm, range'_split_one, hcm]
      simp [h]
    · have hm1 : m + 1 - c = 0 := by omega
      have hm2 : m - c = 0 := by omega
      rw [hm1, hm2]
      simp [h]

lemma downclosed_iff_lt_count (ex : ℕ → Bool) (num : ℕ)
    (hpre : ∀ i j, i ≤ j → j < num → ex j = true → ex i = true) :
    ∀ i, i < num → (ex i = true ↔ i < (List.range num).countP ex) := by
  intro i hi
  constructor
  · intro hex
    have hsub : List.range (i + 1) ⊆ (List.range num).filter ex := by
      intro j hj
      rw [List.mem_range] at hj
      rw [List.mem_filter, List.mem_range]
      exact ⟨by omega, hpre j i (by omega) hi hex⟩
    have hlen := (List.subperm_of_subset (List.nodup_range (i + 1)) hsub).length_le
    rw [List.length_range, ← List.countP_eq_length_filter] at hlen
    omega
  · intro hlt
    by_contra hex
    have hex' : ex i = false := by
      cases h : ex i
      · rfl
      · exact absurd h hex
    have hsub : (List.range num).filter ex ⊆ List.range i := by
      intro j hj
      rw [List.mem_filter, List.mem_range] at hj
      rw [List.mem_range]
      by_contra hji
      have hij : i ≤ j := by omega
      have : ex i = true := hpre i j hij hj.1 hj.2
      rw [hex'] at this
      exact Bool.false_ne_true this
    have hlen := (List.subperm_of_subset (List.Nodup.filter ex (List.nodup_range num)) hsub).length_le
    rw [List.length_range, ← List.countP_eq_length_filter] at hlen
    omega

lemma trainedIndices_eq_filter (ex : ℕ → Bool) (num : ℕ)
    (hpre : ∀ i j, i ≤ j → j < num → ex j = true → ex i = true) :
    trainedIndices ex num = (List.range num).filter (fun i => !(ex i)) := by
  unfold trainedIndices
  by_cases hall : ((List.range num).map ex).all (fun b => b) = true
  · rw [if_pos hall]
    rw [List.all_eq_true] at hall
    symm
    rw [List.filter_eq_nil_iff]
    intro a ha
    have := hall (ex a) (List.mem_map.mpr ⟨a, ha, rfl⟩)
    simp [this]
  · rw [if_neg hall, count_true_map]
    have hpt : ∀ i ∈ List.range num,
        (fun j => !(ex j)) i = (fun j => decide ((List.range num).countP ex ≤ j)) i := by
      intro i hi
      have hiff := downclosed_iff_lt_count ex num hpre i (List.mem_range.mp hi)
      cases hexi : ex i
      · rw [hexi] at hiff
        have hnlt : ¬ i < (List.range num).countP ex := fun h =>
          Bool.false_ne_true (hiff.mpr h)
        simp [hexi, Nat.le_of_not_lt hnlt]
      · rw [hexi] at hiff
        have hlt : i < (List.range num).countP ex := hiff.mp rfl
        simp [hexi, Nat.not_le_of_lt hlt]
    rw [List.filter_congr hpt, filter_ge_range]

/-- C4 (amended): the restarted run trains the member indices
start_model_num, ..., model_num - 1 with start_model_num the count of existing
files; when the existing files form a contiguous prefix of the indices — the
only pattern the pipeline itself produces — these are exactly the indices
whose file is absent, in increasing order, and no existing member is retrained
or overwritten.  (The frozen claim extends this to non-contiguous patterns;
the counterexample shows the code then retrains an existing tail index and
skips the missing one.) -/
theorem c4_resume_trains_missing (ex : ℕ → Bool) (modelNum : ℕ)
    (hpre : ∀ i j, i ≤ j → j < modelNum → ex j = true → ex i = true) :
    trainedIndices ex modelNum = (List.range modelNum).filter (fun i => !(ex i)) ∧
    ∀ i ∈ trainedIndices ex modelNum, ex i = false := by
  refine ⟨trainedIndices_eq_filter ex modelNum hpre, ?_⟩
  intro i hi
  rw [trainedIndices_eq_filter ex modelNum hpre] at hi
  have := (List.mem_filter.mp hi).2
  simpa using this

theorem c4_resume_trains_missing_witness :
    trainedIndices exNone 3 = (List.range 3).filter (fun i => !(exNone i)) :=
  (c4_resume_trains_missing exNone 3 (fun i j h1 h2 h => absurd h (by simp [exNone]))).1

/-- C8 counterexample: starting from the non-contiguous state with model_0 and
model_2 present and model_num = 3, the first run trains only index 2, so
model_1 is still absent after it completes, and the second run trains index 2
again: one additional member rather than zero. -/
theorem c8_counterexample :
    runOnce exA 3 1 = false ∧ trainedIndices (runOnce exA 3) 3 = [2] :=
  ⟨by decide, by decide⟩

/-- C8 (amended): when the persisted files form a contiguous prefix of the
member indices — the only states the pipeline itself produces, including the
empty directory — a completed run leaves model_i present for every
i < model_num, and a second run of the entry point on the same directory with
the same configuration trains zero additional members. -/
theorem c8_resumption_idempotent (ex : ℕ → Bool) (modelNum : ℕ)
    (hpre : ∀ i j, i ≤ j → j < modelNum → ex j = true → ex i = true) :
    (∀ i, i < modelNum → runOnce ex modelNum i = true) ∧
    trainedIndices (runOnce ex modelNum) modelNum = [] := by
  have hall : ∀ i, i < modelNum → runOnce ex modelNum i = true := by
    intro i hi
    unfold runOnce
    rw [trainedIndices_eq_filter ex modelNum hpre]
    cases hexi : ex i
    · have hmem : i ∈ (List.range modelNum).filter (fun j => !(ex j)) := by
        rw [List.mem_filter, List.mem_range]
        exact ⟨hi, by simp [hexi]⟩
      simp [List.contains, List.elem_eq_mem, hmem]
    · simp
  refine ⟨hall, ?_⟩
  unfold trainedIndices
  rw [if_pos ?hcond]
  case hcond =>
    rw [List.all_eq_true]
    intro b hb
    rw [List.mem_map] at hb
    obtain ⟨i, hi, rfl⟩ := hb
    exact hall i (List.mem_range.mp hi)

theorem c8_resumption_idempotent_witness :
    trainedIndices (runOnce exNone 2) 2 = [] :=
  (c8_resumption_idempotent exNone 2 (fun i j h1 h2 h => absurd h (by simp [exNone]))).2

/-- Permutation X.permute(1,0,2,3) of the (N, D, H, W) accumulator (line 76). -/
def permuteX {α : Type} (X : ℕ → ℕ → ℕ → ℕ → α) : ℕ → ℕ → ℕ → ℕ → α :=
  fun j n h w => X n j h w

/-- Row-major reshape(d, -1) of a (D, N, H, W) tensor: the last three axes are
merged into the flat index m = (n * H + h) * W + w (line 76). -/
def reshapeD {α : Type} (H W : ℕ) (Y : ℕ → ℕ → ℕ → ℕ → α) : ℕ → ℕ → α :=
  fun j m => Y j (m / (H * W)) (m % (H * W) / W) (m % (H * W) % W)

/-- The final permute(1, 0) (line 76): rows become the (image, pixel)
coordinates, columns the feature dimension. -/
def transposeMat {α : Type} (M : ℕ → ℕ → α) : ℕ → ℕ → α := fun m j => M j m

/-- The flattened feature matrix of prepare_data (line 76). -/
def flattenedX {α : Type} (H W : ℕ) (X : ℕ → ℕ → ℕ → ℕ → α) : ℕ → ℕ → α :=
  transposeMat (reshapeD H W (permuteX X))

/-- y.flatten() of the (N, H, W) label accumulator (line 77). -/
def flattenedY {β : Type} (H W : ℕ) (y : ℕ → ℕ → ℕ → β) : ℕ → β :=
  fun m => y (m / (H * W)) (m % (H * W) / W) (m % (H * W) % W)

lemma maskSelect_zip {α β : Type} (mask : List Bool) (xs : List α) (ys : List β) :
    maskSelect mask (xs.zip ys) = (maskSelect mask xs).zip (maskSelect mask ys) := by
  induction mask generalizing xs ys with
  | nil => simp [maskSelect]
  | cons b ms ih =>
    cases xs with
    | nil => simp [maskSelect]
    | cons x xs =>
      cases ys with
      | nil => simp [maskSelect]
      | cons y ys =>
        cases b
        · simpa [maskSelect] using ih xs ys
        · simpa [maskSelect] using ih xs ys

/-- C6: after the permute/reshape of prepare_data the feature axis is last and
row k of the feature matrix refers to the same (image, pixel) coordinate as
entry k of the flattened label vector, both flattened image-major and
row-major: row n*(H*W) + h*W + w holds feature X n j h w in column j and label
y n h w; furthermore selecting with one boolean mask removes a feature row and
its label together. -/
theorem c6_flatten_alignment {α : Type} (H W : ℕ)
    (X : ℕ → ℕ → ℕ → ℕ → α) (y : ℕ → ℕ → ℕ → ℕ)
    (n j h w : ℕ) (hh : h < H) (hw : w < W) :
    (flattenedX H W X (n * (H * W) + h * W + w) j = X n j h w ∧
     flattenedY H W y (n * (H * W) + h * W + w) = y n h w) ∧
    ∀ (mask : List Bool) (xs : List α) (ys : List ℕ),
      maskSelect mask (xs.zip ys) = (maskSelect mask xs).zip (maskSelect mask ys) := by
  have hW : 0 < W := by omega
  have hHW : 0 < H * W := Nat.mul_pos (by omega) hW
  have hlt : h * W + w < H * W := by
    calc h * W + w < h * W + W := by omega
      _ = (h + 1) * W := by ring
      _ ≤ H * W := Nat.mul_le_mul_right W (by omega)
  have heq : n * (H * W) + h * W + w = (H * W) * n + (h * W + w) := by ring
  have hdiv : (n * (H * W) + h * W + w) / (H * W) = n := by
    rw [heq, Nat.mul_add_div hHW, Nat.div_eq_of_lt hlt, Nat.add_zero]
  have hmod : (n * (H * W) + h * W + w) % (H * W) = h * W + w := by
    rw [heq, Nat.mul_add_mod, Nat.mod_eq_of_lt hlt]
  have heq2 : h * W + w = W * h + w := by ring
  have hdiv2 : (h * W + w) / W = h := by
    rw [heq2, Nat.mul_add_div hW, Nat.div_eq_of_lt hw, Nat.add_zero]
  have hmod2 : (h * W + w) % W = w := by
    rw [heq2, Nat.mul_add_mod, Nat.mod_eq_of_lt hw]
  refine ⟨⟨?_, ?_⟩, fun mask xs ys => maskSelect_zip mask xs ys⟩
  · unfold flattenedX transposeMat reshapeD permuteX
    rw [hdiv, hmod, hdiv2, hmod2]
  · unfold flattenedY
    rw [hdiv, hmod, hdiv2, hmod2]

/-- A concrete feature accumulator encoding its four indices. -/
def Xc6 : ℕ → ℕ → ℕ → ℕ → ℕ := fun n j h w => 1000 * n + 100 * j + 10 * h + w

/-- A concrete label accumulator encoding its three indices. -/
def yc6 : ℕ → ℕ → ℕ → ℕ := fun n h w => 100 * n + 10 * h + w

theorem c6_flatten_alignment_witness :
    flattenedX 2 2 Xc6 (1 * (2 * 2) + 1 * 2 + 0) 0 = Xc6 1 0 1 0 ∧
    flattenedY 2 2 yc6 (1 * (2 * 2) + 1 * 2 + 0) = yc6 1 1 0 :=
  (c6_flatten_alignment 2 2 Xc6 yc6 1 0 1 0 (by decide) (by decide)).1

/-- The configuration fields that determine the optional shared noise:
whether share_noise is present and true, the seed, and the image size. -/
structure NoiseCfg where
  share_noise : Bool
  seed : ℕ
  image_size : ℕ
deriving DecidableEq

/-- Deterministic description of the tensor
torch.randn(1, 3, size, size, generator=manual_seed(seed)): randn on a seeded
generator is a pure function of the seed and the shape, so the tensor is
represented by them. -/
structure NoiseSpec where
  seed : ℕ
  batch : ℕ
  channels : ℕ
  height : ℕ
  width : ℕ
deriving DecidableEq

/-- Noise constructed by prepare_data (lines 53-59). -/
def prepareNoise (cfg : NoiseCfg) : Option NoiseSpec :=
  if cfg.share_noise then
    some ⟨cfg.seed, 1, 3, cfg.image_size, cfg.image_size⟩
  else none

/-- Noise constructed by evaluation (lines 92-97). -/
def evaluationNoise (cfg : NoiseCfg) : Option NoiseSpec :=
  if cfg.share_noise then
    some ⟨cfg.seed, 1, 3, cfg.image_size, cfg.image_size⟩
  else none

/-- The noise argument prepare_data passes to the feature extractor for each
of the n images: the single tensor built before the loop is passed unchanged
at every iteration (line 63). -/
def prepareNoisePerImage (cfg : NoiseCfg) (n : ℕ) : List (Option NoiseSpec) :=
  List.replicate n (prepareNoise cfg)

/-- C7: with share_noise enabled, one noise tensor generated from the seed is
passed to the feature extractor for every image; prepare_data and evaluation
construct it by the identical procedure from the same seed, so the training
and evaluation phases of one run, and any two runs with equal seed and
configuration, feed equal noise to feature extraction; with share_noise
disabled no noise is supplied in either phase. -/
theorem c7_shared_noise_deterministic :
    (∀ cfg : NoiseCfg, prepareNoise cfg = evaluationNoise cfg) ∧
    (∀ (cfg : NoiseCfg) (n : ℕ), ∀ o ∈ prepareNoisePerImage cfg n, o = prepareNoise cfg) ∧
    (∀ cfg : NoiseCfg, cfg.share_noise = false →
      prepareNoise cfg = none ∧ evaluationNoise cfg = none) ∧
    (∀ cfg cfg2 : NoiseCfg, cfg.seed = cfg2.seed → cfg.share_noise = cfg2.share_noise →
      cfg.image_size = cfg2.image_size → prepareNoise cfg = evaluationNoise cfg2) := by
  refine ⟨fun cfg => rfl, ?_, ?_, ?_⟩
  · intro cfg n o ho
    exact (List.mem_replicate.mp ho).2
  · intro cfg h
    unfold prepareNoise evaluationNoise
    rw [h]
    exact ⟨by simp, by simp⟩
  · intro cfg cfg2 h1 h2 h3
    unfold prepareNoise evaluationNoise
    rw [h1, h2, h3]

theorem c7_shared_noise_deterministic_witness :
    prepareNoise ⟨false, 0, 4⟩ = none ∧ evaluationNoise ⟨false, 0, 4⟩ = none :=
  c7_shared_noise_deterministic.2.2.1 ⟨false, 0, 4⟩ rfl

/-- Python division with its ZeroDivisionError embedded as none. -/
def pyDiv (a b : ℚ) : Option ℚ := if b = 0 then none else some (a / b)

/-- The per-image uncertainty scores collected by evaluation's loop
(lines 99-109): one score per test image. -/
def evaluationUncertaintyScores {α : Type} (imgs : List α) (score : α → ℚ) : List ℚ :=
  imgs.map score

/-- The mean uncertainty reported by evaluation (line 114):
sum(uncertainty_scores) / len(uncertainty_scores). -/
def meanUncertainty (scores : List ℚ) : Option ℚ :=
  pyDiv scores.sum (scores.length : ℚ)

/-- C9: evaluation's reported mean uncertainty divides the sum of per-image
scores by their count: for an empty test dataset this is a division by zero
and the evaluation fails, while for a dataset with at least one image the
division is well-defined and equals the arithmetic mean of the scores. -/
theorem c9_mean_uncertainty_requires_nonempty {α : Type} (imgs : List α) (score : α → ℚ) :
    (imgs = [] → meanUncertainty (evaluationUncertaintyScores imgs score) = none) ∧
    (imgs ≠ [] → meanUncertainty (evaluationUncertaintyScores imgs score)
        = some ((evaluationUncertaintyScores imgs score).sum
            / ((evaluationUncertaintyScores imgs score).length : ℚ))) := by
  constructor
  · intro h
    subst h
    rfl
  · intro h
    unfold meanUncertainty pyDiv
    rw [if_neg]
    intro hz
    have hlen : (evaluationUncertaintyScores imgs score).length = 0 := by
      exact_mod_cast hz
    unfold evaluationUncertaintyScores at hlen
    rw [List.length_map] at hlen
    exact h (List.length_eq_zero.mp hlen)

theorem c9_mean_uncertainty_witness :
    meanUncertainty (evaluationUncertaintyScores ([1, 2] : List ℕ) (fun n => (n : ℚ)))
      = some ((evaluationUncertaintyScores ([1, 2] : List ℕ) (fun n => (n : ℚ))).sum
          / ((evaluationUncertaintyScores ([1, 2] : List ℕ) (fun n => (n : ℚ))).length : ℚ)) :=
  (c9_mean_uncertainty_requires_nonempty ([1, 2] : List ℕ) (fun n => (n : ℚ))).2 (by decide)

/-- The ground truths collected by evaluation (lines 100-107): the raw test
labels are appended unchanged — no sparse-label suppression at test time. -/
def evaluationGts (labels : List (List ℕ)) : List (List ℕ) := labels

/-- All (prediction, ground truth) pixel pairs of a test set, image by image. -/
def pixelPairs (preds gts : List (List ℕ)) : List (ℕ × ℕ) :=
  ((preds.zip gts).map (fun p => p.1.zip p.2)).flatten

/-- Modelled from the spec: compute_iou lives in src/pixel_classifier.py,
which is not part of the provided source.  Following section 4.4, pixels whose
ground truth carries the ignore label never contribute, and the true-positive
count of class c is the number of pixels predicted c with ground truth c. -/
def tpCount (ignore c : ℕ) (pp : List (ℕ × ℕ)) : ℕ :=
  pp.countP (fun q => decide (q.2 ≠ ignore) && decide (q.1 = c) && decide (q.2 = c))

/-- Modelled from the spec: false positives of class c (section 4.4), over
pixels not carrying the ignore ground truth. -/
def fpCount (ignore c : ℕ) (pp : List (ℕ × ℕ)) : ℕ :=
  pp.countP (fun q => decide (q.2 ≠ ignore) && decide (q.1 = c) && decide (q.2 ≠ c))

/-- Modelled from the spec: false negatives of class c (section 4.4), over
pixels not carrying the ignore ground truth. -/
def fnCount (ignore c : ℕ) (pp : List (ℕ × ℕ)) : ℕ :=
  pp.countP (fun q => decide (q.2 ≠ ignore) && decide (q.1 ≠ c) && decide (q.2 = c))

/-- Modelled from the spec: per-class IoU = TP / (TP + FP + FN), defined as 0
when the denominator is 0 (section 4.4). -/
def iouClass (ignore c : ℕ) (preds gts : List (List ℕ)) : ℚ :=
  if tpCount ignore c (pixelPairs preds gts) + fpCount ignore c (pixelPairs preds gts)
      + fnCount ignore c (pixelPairs preds gts) = 0 then 0
  else (tpCount ignore c (pixelPairs preds gts) : ℚ)
        / ((tpCount ignore c (pixelPairs preds gts) + fpCount ignore c (pixelPairs preds gts)
            + fnCount ignore c (pixelPairs preds gts) : ℕ) : ℚ)

/-- Image 1 of the 4x4 scenario: five pixels of class 1, eleven of class 0. -/
def gtsImg1 : List ℕ := List.replicate 5 1 ++ List.replicate 11 0

/-- Image 2 of the 4x4 scenario: eleven pixels of class 0, five of class 1. -/
def gtsImg2 : List ℕ := List.replicate 11 0 ++ List.replicate 5 1

/-- C5 counterexample: in the scenario (2 images, 4x4, numClasses = 3, ignore
label 255, class 1 with exactly 10 true pixels over both images), evaluation
collects the raw test labels, not suppressed ones, and with the prediction
equal to the true labels the class-1 IoU computed from the collected ground
truths is 1, while it would be 0 had the same suppression been applied to
them: the 10 pixels do contribute to the mIoU for class 1, and the evaluation
path applies no suppression. -/
theorem c5_counterexample :
    gtsImg1.count 1 + gtsImg2.count 1 = 10 ∧
    evaluationGts [gtsImg1, gtsImg2] = [gtsImg1, gtsImg2] ∧
    evaluationGts [gtsImg1, gtsImg2]
      ≠ [suppressImage 3 255 gtsImg1, suppressImage 3 255 gtsImg2] ∧
    iouClass 255 1 [gtsImg1, gtsImg2] (evaluationGts [gtsImg1, gtsImg2]) = 1 ∧
    iouClass 255 1 [gtsImg1, gtsImg2]
      [suppressImage 3 255 gtsImg1, suppressImage 3 255 gtsImg2] = 0 := by
  have htp : tpCount 255 1 (pixelPairs [gtsImg1, gtsImg2]
      (evaluationGts [gtsImg1, gtsImg2])) = 10 := by decide
  have hfp : fpCount 255 1 (pixelPairs [gtsImg1, gtsImg2]
      (evaluationGts [gtsImg1, gtsImg2])) = 0 := by decide
  have hfn : fnCount 255 1 (pixelPairs [gtsImg1, gtsImg2]
      (evaluationGts [gtsImg1, gtsImg2])) = 0 := by decide
  have h2tp : tpCount 255 1 (pixelPairs [gtsImg1, gtsImg2]
      [suppressImage 3 255 gtsImg1, suppressImage 3 255 gtsImg2]) = 0 := by decide
  have h2fp : fpCount 255 1 (pixelPairs [gtsImg1, gtsImg2]
      [suppressImage 3 255 gtsImg1, suppressImage 3 255 gtsImg2]) = 0 := by decide
  have h2fn : fnCount 255 1 (pixelPairs [gtsImg1, gtsImg2]
      [suppressImage 3 255 gtsImg1, suppressImage 3 255 gtsImg2]) = 0 := by decide
  refine ⟨by decide, rfl, by decide, ?_, ?_⟩
  · unfold iouClass
    rw [htp, hfp, hfn]
    norm_num
  · unfold iouClass
    rw [h2tp, h2fp, h2fn]
    norm_num

/-- C5 (amended): in the scenario the 10 class-1 pixels are suppressed to 255
at training time and excluded from the Feature Table (prepare_data returns no
rows at all for these two images, every present class being sparse at 4x4
resolution); but evaluation does not apply suppression to the test ground
truths: it collects the raw labels, the 10 pixels keep class 1, appear as 10
true positives when predicted correctly, and the class-1 IoU over the
collected ground truths is 1 rather than the 0 that suppressed ground truths
would give — those pixels do contribute to the mIoU computation. -/
theorem c5_suppression_training_only :
    suppressImage 3 255 gtsImg1 = List.replicate 16 255 ∧
    prepareData 3 255
      [(List.replicate 16 (0 : ℕ), gtsImg1), (List.replicate 16 0, gtsImg2)] = ([], []) ∧
    evaluationGts [gtsImg1, gtsImg2] = [gtsImg1, gtsImg2] ∧
    tpCount 255 1 (pixelPairs [gtsImg1, gtsImg2] (evaluationGts [gtsImg1, gtsImg2])) = 10 ∧
    iouClass 255 1 [gtsImg1, gtsImg2] (evaluationGts [gtsImg1, gtsImg2]) = 1 := by
  have htp : tpCount 255 1 (pixelPairs [gtsImg1, gtsImg2]
      (evaluationGts [gtsImg1, gtsImg2])) = 10 := by decide
  have hfp : fpCount 255 1 (pixelPairs [gtsImg1, gtsImg2]
      (evaluationGts [gtsImg1, gtsImg2])) = 0 := by decide
  have hfn : fnCount 255 1 (pixelPairs [gtsImg1, gtsImg2]
      (evaluationGts [gtsImg1, gtsImg2])) = 0 := by decide
  refine ⟨by decide, by decide, rfl, htp, ?_⟩
  unfold iouClass
  rw [htp, hfp, hfn]
  norm_num
